import Mathlib

/-!
Shallow embedding of the options-pricing core of the repository
(`models.py`): the Abramowitz–Stegun `erf` approximation, `normal_cdf`,
`calculate_delta`, the Barone-Adesi-Whaley pricer
`barone_adesi_whaley_american_option_price`, and the bisection
implied-volatility solver `calculate_implied_volatility_baw`.

Python floats are modelled as real numbers.  Run-time failures of the
Python code (`ZeroDivisionError` from float division by zero under
numba's python error model, `ValueError` from `math.log`/`math.sqrt`
domain errors and from the explicit `raise ValueError` for a bad
option type) are modelled by an `Except PyError` result, with a guard
inserted at each operation of the source that can raise, in the
source's evaluation order.
-/

noncomputable section

/-- The failure modes of the Python functions. -/
inductive PyError
  | zeroDivision
  | mathDomain
  | valueError
deriving DecidableEq, Repr

/-- `erf`, models.py lines 136-161.  Note the source reassigns
`x = abs(x)` before computing `sign`, so the `sign` test reads the
reassigned (nonnegative) value; the embedding mirrors the shadowing. -/
def erf (x : ℝ) : ℝ :=
  let a1 : ℝ := 0.254829592
  let a2 : ℝ := -0.284496736
  let a3 : ℝ := 1.421413741
  let a4 : ℝ := -1.453152027
  let a5 : ℝ := 1.061405429
  let p : ℝ := 0.3275911
  let x := |x|
  let t := 1.0 / (1.0 + p * x)
  let y := 1.0 - (((((a5 * t + a4) * t + a3) * t + a2) * t + a1) * t * Real.exp (-x * x))
  let sign : ℝ := if x ≥ 0 then 1 else -1
  sign * y

/-- `normal_cdf`, models.py lines 163-174. -/
def normal_cdf (x : ℝ) : ℝ :=
  0.5 * (1.0 + erf (x / Real.sqrt 2.0))

/-- The quintic polynomial `((((a5*t+a4)*t+a3)*t+a2)*t+a1)*t` used in
`erf` (proof-side name for the Horner expression of the source). -/
def polyA (t : ℝ) : ℝ :=
  ((((1.061405429 * t + -1.453152027) * t + 1.421413741) * t + -0.284496736) * t
      + 0.254829592) * t

/-- The argument of `sqrt` in the `q2` computation, models.py line 194:
`(n-1)**2 + 4*M` with `M = 2r/sigma**2`, `n = 2(r-0.5 sigma**2)/sigma**2`. -/
def discrval (r sigma : ℝ) : ℝ :=
  let M := 2 * r / sigma ^ 2
  let n := 2 * (r - 0.5 * sigma ^ 2) / sigma ^ 2
  (n - 1) ^ 2 + 4 * M

/-- `q2`, models.py line 194. -/
def q2val (r sigma : ℝ) : ℝ :=
  let M := 2 * r / sigma ^ 2
  let n := 2 * (r - 0.5 * sigma ^ 2) / sigma ^ 2
  (-(n - 1) - Real.sqrt ((n - 1) ^ 2 + 4 * M)) / 2

/-- `d1`, models.py line 196 (also line 20 in `calculate_delta`). -/
def d1val (S K T r sigma : ℝ) : ℝ :=
  (Real.log (S / K) + (r + 0.5 * sigma ^ 2) * T) / (sigma * Real.sqrt T)

/-- `d2 = d1 - sigma*sqrt(T)`, models.py line 197. -/
def d2val (S K T r sigma : ℝ) : ℝ :=
  d1val S K T r sigma - sigma * Real.sqrt T

/-- The local `BAW` value of the calls branch, models.py line 200:
the European Black-Scholes call value computed with the code's
`normal_cdf`. -/
def bawEuropeanCall (S K T r sigma : ℝ) : ℝ :=
  S * normal_cdf (d1val S K T r sigma)
    - K * Real.exp (-r * T) * normal_cdf (d2val S K T r sigma)

/-- The local `BAW` value of the puts branch, models.py line 210. -/
def bawEuropeanPut (S K T r sigma : ℝ) : ℝ :=
  K * Real.exp (-r * T) * normal_cdf (-d2val S K T r sigma)
    - S * normal_cdf (-d1val S K T r sigma)

/-- `calculate_delta`, models.py lines 4-29.  Guards model, in source
order, the failure points of the `d1` line (`S/K` division by zero for
`K = 0`, `math.log` domain for `S/K <= 0`, `math.sqrt` domain for
`T < 0`, division by zero for `sigma*sqrt(T) = 0`), then the
`ValueError` raised for an invalid option type. -/
def calculate_delta (S K T r sigma : ℝ) (option_type : String) : Except PyError ℝ :=
  if K = 0 then .error .zeroDivision
  else if S / K ≤ 0 then .error .mathDomain
  else if T < 0 then .error .mathDomain
  else if sigma * Real.sqrt T = 0 then .error .zeroDivision
  else
    let d1 := d1val S K T r sigma
    if option_type = "calls" then .ok (normal_cdf d1)
    else if option_type = "puts" then .ok (normal_cdf d1 - 1)
    else .error .valueError

/-- `barone_adesi_whaley_american_option_price`, models.py lines
177-220.  Guards model, in source order: division by zero in
`M = 2r/sigma**2` when `sigma = 0`; the (never-firing) `math.sqrt`
domain check for `q2`; the failure points of the `d1` line; then the
branch structure of the source, including the division by zero in
`1/q2` when `q2 = 0` and in `K/(1 - 1/q2)` when `1 - 1/q2 = 0`.
`**` between reals is modelled by `Real.rpow`. -/
def barone_adesi_whaley_american_option_price (S K T r sigma : ℝ)
    (option_type : String) : Except PyError ℝ :=
  if sigma = 0 then .error .zeroDivision
  else if discrval r sigma < 0 then .error .mathDomain
  else if K = 0 then .error .zeroDivision
  else if S / K ≤ 0 then .error .mathDomain
  else if T < 0 then .error .mathDomain
  else if sigma * Real.sqrt T = 0 then .error .zeroDivision
  else if option_type = "calls" then
    let BAW := bawEuropeanCall S K T r sigma
    if q2val r sigma < 0 then .ok BAW
    else if q2val r sigma = 0 then .error .zeroDivision
    else if 1 - 1 / q2val r sigma = 0 then .error .zeroDivision
    else
      let Scrit := K / (1 - 1 / q2val r sigma)
      if S ≥ Scrit then .ok (S - K)
      else
        let A2 := (Scrit - K) * Scrit ^ (-q2val r sigma)
        .ok (BAW + A2 * (S / Scrit) ^ q2val r sigma)
  else if option_type = "puts" then
    let BAW := bawEuropeanPut S K T r sigma
    if q2val r sigma < 0 then .ok BAW
    else if q2val r sigma = 0 then .error .zeroDivision
    else if 1 - 1 / q2val r sigma = 0 then .error .zeroDivision
    else
      let Scrit := K / (1 - 1 / q2val r sigma)
      if S ≤ Scrit then .ok (K - S)
      else
        let A2 := (K - Scrit) * Scrit ^ (-q2val r sigma)
        .ok (BAW + A2 * (S / Scrit) ^ q2val r sigma)
  else .error .valueError

/-- One run of the `for _ in range(max_iterations)` loop of
`calculate_implied_volatility_baw`, models.py lines 243-258.  The last
three arguments carry the loop state `lower_vol`, `upper_vol`,
`mid_vol`; at fuel 0 the loop exits and the function returns the
carried `mid_vol` (source line 258). -/
def ivLoop (S K T r : ℝ) (option_type : String) (option_price tolerance : ℝ) :
    ℕ → ℝ → ℝ → ℝ → Except PyError ℝ
  | 0, _, _, mid => .ok mid
  | fuel + 1, lower, upper, _ =>
    let mid := (lower + upper) / 2
    match barone_adesi_whaley_american_option_price S K T r mid option_type with
    | .error e => .error e
    | .ok price =>
      if |price - option_price| < tolerance then .ok mid
      else
        let lower' := if price > option_price then lower else mid
        let upper' := if price > option_price then mid else upper
        let upper'' :=
          if upper' - lower' < tolerance ∧ upper' ≥ 2.0 then upper' * 2.0 else upper'
        ivLoop S K T r option_type option_price tolerance fuel lower' upper'' mid

/-- `calculate_implied_volatility_baw`, models.py lines 222-258, with
its parameter order (`option_price, S, K, r, T, option_type,
max_iterations, tolerance`), starting bracket `[0.0001, 2.0]`.  The
initial carried `mid_vol` (unbound in the source before the first
iteration) is irrelevant for `max_iterations >= 1`. -/
def calculate_implied_volatility_baw (option_price S K r T : ℝ)
    (option_type : String) (max_iterations : ℕ) (tolerance : ℝ) :
    Except PyError ℝ :=
  ivLoop S K T r option_type option_price tolerance max_iterations 0.0001 2.0 0

/-! ### Basic facts about the `erf` polynomial and `normal_cdf` -/

theorem polyA_expand (t : ℝ) :
    polyA t = 0.254829592 * t - 0.284496736 * t ^ 2 + 1.421413741 * t ^ 3
      - 1.453152027 * t ^ 4 + 1.061405429 * t ^ 5 := by
  unfold polyA; ring

theorem polyA_nonneg {t : ℝ} (ht : 0 ≤ t) : 0 ≤ polyA t := by
  rw [polyA_expand]
  nlinarith [mul_nonneg ht (sq_nonneg (t ^ 2 - 0.6845 * t + 0.2)),
    mul_nonneg ht (sq_nonneg (0.70674 * t + 0.00434)),
    mul_nonneg ht (sq_nonneg (t - 0.2)), ht,
    mul_nonneg ht (sq_nonneg t), mul_nonneg ht (sq_nonneg (t - 1)),
    mul_nonneg ht (sq_nonneg (t ^ 2 - 0.5 * t))]

theorem polyA_le_one {t : ℝ} (ht : t ≤ 1) : polyA t ≤ 1 := by
  rw [polyA_expand]
  have hu : (0:ℝ) ≤ 1 - t := by linarith
  nlinarith [mul_nonneg hu (sq_nonneg ((1 - t) ^ 2 - 1.815556 * (1 - t) + 1)),
    mul_nonneg hu (sq_nonneg (0.775495 * (1 - t) - 1.303068)), hu,
    mul_nonneg hu (sq_nonneg (1 - t)), mul_nonneg hu (sq_nonneg ((1 - t) ^ 2 - 1)),
    mul_nonneg hu (sq_nonneg ((1 - t) ^ 2 - (1 - t)))]

theorem polyA_ge_interval (t lo hi : ℝ) (h0 : 0 ≤ lo) (h1 : lo ≤ t) (h2 : t ≤ hi) :
    0.254829592 * lo - 0.284496736 * hi ^ 2 + 1.421413741 * lo ^ 3
      - 1.453152027 * hi ^ 4 + 1.061405429 * lo ^ 5 ≤ polyA t := by
  have ht0 : 0 ≤ t := le_trans h0 h1
  have p2 : t ^ 2 ≤ hi ^ 2 := pow_le_pow_left₀ ht0 h2 2
  have p3 : lo ^ 3 ≤ t ^ 3 := pow_le_pow_left₀ h0 h1 3
  have p4 : t ^ 4 ≤ hi ^ 4 := pow_le_pow_left₀ ht0 h2 4
  have p5 : lo ^ 5 ≤ t ^ 5 := pow_le_pow_left₀ h0 h1 5
  rw [polyA_expand]; nlinarith [h1, p2, p3, p4, p5]

theorem polyA_le_interval (t lo hi : ℝ) (h0 : 0 ≤ lo) (h1 : lo ≤ t) (h2 : t ≤ hi) :
    polyA t ≤ 0.254829592 * hi - 0.284496736 * lo ^ 2 + 1.421413741 * hi ^ 3
      - 1.453152027 * lo ^ 4 + 1.061405429 * hi ^ 5 := by
  have ht0 : 0 ≤ t := le_trans h0 h1
  have p2 : lo ^ 2 ≤ t ^ 2 := pow_le_pow_left₀ h0 h1 2
  have p3 : t ^ 3 ≤ hi ^ 3 := pow_le_pow_left₀ ht0 h2 3
  have p4 : lo ^ 4 ≤ t ^ 4 := pow_le_pow_left₀ h0 h1 4
  have p5 : t ^ 5 ≤ hi ^ 5 := pow_le_pow_left₀ ht0 h2 5
  rw [polyA_expand]; nlinarith [h2, p2, p3, p4, p5]

/-- Because the source computes `sign` after reassigning `x = abs(x)`,
the `sign` factor is always `1`: for every real `x`,
`erf x = 1 - polyA(1/(1+p|x|)) * exp(-|x|^2)`. -/
theorem erf_eq (x : ℝ) :
    erf x = 1 - polyA (1 / (1 + 0.3275911 * |x|)) * Real.exp (-(|x| * |x|)) := by
  unfold erf polyA
  simp only [ge_iff_le, abs_nonneg, if_true]
  norm_num

theorem erf_neg_eq (x : ℝ) : erf (-x) = erf x := by
  unfold erf
  rw [abs_neg]

theorem erf_tval_pos (x : ℝ) : 0 < 1 / (1 + 0.3275911 * |x|) := by
  have : (0:ℝ) < 1 + 0.3275911 * |x| := by positivity
  positivity

theorem erf_tval_le_one (x : ℝ) : 1 / (1 + 0.3275911 * |x|) ≤ 1 := by
  rw [div_le_one (by positivity)]
  nlinarith [abs_nonneg x]

theorem erf_exp_pos (x : ℝ) : 0 < Real.exp (-(|x| * |x|)) := Real.exp_pos _

theorem erf_exp_le_one (x : ℝ) : Real.exp (-(|x| * |x|)) ≤ 1 := by
  rw [Real.exp_le_one_iff]
  nlinarith [abs_nonneg x]

theorem erf_nonneg (x : ℝ) : 0 ≤ erf x := by
  rw [erf_eq]
  have h1 := polyA_le_one (erf_tval_le_one x)
  have h2 := polyA_nonneg (le_of_lt (erf_tval_pos x))
  have h3 := erf_exp_pos x
  have h4 := erf_exp_le_one x
  nlinarith

theorem erf_le_one (x : ℝ) : erf x ≤ 1 := by
  rw [erf_eq]
  have h2 := polyA_nonneg (le_of_lt (erf_tval_pos x))
  have h3 := erf_exp_pos x
  nlinarith

theorem normal_cdf_nonneg (x : ℝ) : 0 ≤ normal_cdf x := by
  unfold normal_cdf
  nlinarith [erf_nonneg (x / Real.sqrt 2.0)]

theorem normal_cdf_le_one (x : ℝ) : normal_cdf x ≤ 1 := by
  unfold normal_cdf
  nlinarith [erf_le_one (x / Real.sqrt 2.0)]

/-! ### Elementary exponential bounds -/

theorem exp_neg_le_rat (c : ℝ) (h : 0 ≤ c) : Real.exp (-c) ≤ (8 / (8 + c)) ^ 8 := by
  have h8 : (0:ℝ) < 8 + c := by linarith
  have e1 : Real.exp (-c) = Real.exp (-(c / 8)) ^ 8 := by
    rw [← Real.exp_nat_mul]
    congr 1
    push_cast
    ring
  have e2 : Real.exp (-(c / 8)) ≤ 8 / (8 + c) := by
    have ha : 1 + c / 8 ≤ Real.exp (c / 8) := by
      have := Real.add_one_le_exp (c / 8)
      linarith
    have hb : (0:ℝ) < 1 + c / 8 := by linarith
    rw [Real.exp_neg]
    have : (8:ℝ) / (8 + c) = (1 + c / 8)⁻¹ := by
      field_simp
    rw [this]
    exact inv_anti₀ hb ha
  rw [e1]
  exact pow_le_pow_left₀ (le_of_lt (Real.exp_pos _)) e2 8

theorem exp_neg_ge_rat (c : ℝ) (_h0 : 0 ≤ c) (h8 : c ≤ 8) :
    (1 - c / 8) ^ 8 ≤ Real.exp (-c) := by
  have e1 : Real.exp (-c) = Real.exp (-(c / 8)) ^ 8 := by
    rw [← Real.exp_nat_mul]
    congr 1
    push_cast
    ring
  have e2 : 1 - c / 8 ≤ Real.exp (-(c / 8)) := by
    have := Real.add_one_le_exp (-(c / 8))
    linarith
  rw [e1]
  exact pow_le_pow_left₀ (by linarith) e2 8

/-! ### Sign of `q2` and the branch taken by the pricer -/

theorem discrval_eq (r sigma : ℝ) (hs : sigma ≠ 0) :
    discrval r sigma = (2 * r / sigma ^ 2) ^ 2 + 4 := by
  unfold discrval
  have h2 : sigma ^ 2 ≠ 0 := pow_ne_zero 2 hs
  field_simp
  ring

theorem discrval_nonneg (r sigma : ℝ) (hs : sigma ≠ 0) : 0 ≤ discrval r sigma := by
  rw [discrval_eq r sigma hs]
  positivity

theorem q2val_eq (r sigma : ℝ) (hs : sigma ≠ 0) :
    q2val r sigma
      = (2 - 2 * r / sigma ^ 2 - Real.sqrt ((2 * r / sigma ^ 2) ^ 2 + 4)) / 2 := by
  rw [show q2val r sigma
      = (-(2 * (r - 0.5 * sigma ^ 2) / sigma ^ 2 - 1)
          - Real.sqrt ((2 * (r - 0.5 * sigma ^ 2) / sigma ^ 2 - 1) ^ 2
            + 4 * (2 * r / sigma ^ 2))) / 2 from rfl]
  have h2 : sigma ^ 2 ≠ 0 := pow_ne_zero 2 hs
  have hn : 2 * (r - 0.5 * sigma ^ 2) / sigma ^ 2 - 1 = 2 * r / sigma ^ 2 - 2 := by
    field_simp
    ring
  rw [hn]
  have harg : (2 * r / sigma ^ 2 - 2) ^ 2 + 4 * (2 * r / sigma ^ 2)
      = (2 * r / sigma ^ 2) ^ 2 + 4 := by ring
  rw [harg]
  ring

theorem q2val_neg (r sigma : ℝ) (hr : 0 < r) (hs : sigma ≠ 0) : q2val r sigma < 0 := by
  rw [q2val_eq r sigma hs]
  set m := 2 * r / sigma ^ 2 with hm
  have hmpos : 0 < m := by
    rw [hm]
    positivity
  have hkey : 2 - m < Real.sqrt (m ^ 2 + 4) := by
    rcases le_or_lt (2 - m) 0 with h | h
    · calc 2 - m ≤ 0 := h
        _ < Real.sqrt (m ^ 2 + 4) := Real.sqrt_pos.mpr (by positivity)
    · rw [Real.lt_sqrt (le_of_lt h)]
      nlinarith
  linarith

theorem q2val_pos (r sigma : ℝ) (hr : r < 0) (hs : sigma ≠ 0) : 0 < q2val r sigma := by
  rw [q2val_eq r sigma hs]
  set m := 2 * r / sigma ^ 2 with hm
  have hmneg : m < 0 := by
    rw [hm]
    apply div_neg_of_neg_of_pos (by linarith) (by positivity)
  have hkey : Real.sqrt (m ^ 2 + 4) < 2 - m := by
    rw [Real.sqrt_lt' (by linarith)]
    nlinarith
  linarith

theorem q2val_lt_one (r sigma : ℝ) (hs : sigma ≠ 0) : q2val r sigma < 1 := by
  rw [q2val_eq r sigma hs]
  set m := 2 * r / sigma ^ 2 with hm
  have h1 : Real.sqrt (m ^ 2) < Real.sqrt (m ^ 2 + 4) :=
    Real.sqrt_lt_sqrt (by positivity) (by linarith)
  rw [Real.sqrt_sq_eq_abs] at h1
  have h2 : -m ≤ |m| := neg_le_abs m
  linarith

theorem q2val_zero (sigma : ℝ) (hs : sigma ≠ 0) : q2val 0 sigma = 0 := by
  rw [q2val_eq 0 sigma hs]
  have h0 : 2 * (0:ℝ) / sigma ^ 2 = 0 := by
    rw [mul_zero, zero_div]
  rw [h0]
  have h4 : ((0:ℝ) ^ 2 + 4) = 2 ^ 2 := by norm_num
  rw [h4, Real.sqrt_sq (by norm_num)]
  norm_num

/-- When the guards pass and `q2 < 0`, the pricer returns the European
Black-Scholes value computed with the code's `normal_cdf` (source
lines 201-202 and 211-212). -/
theorem baw_euro_branch (S K T r sigma : ℝ) (hS : 0 < S) (hK : 0 < K) (hT : 0 < T)
    (hs : sigma ≠ 0) (hq : q2val r sigma < 0) :
    barone_adesi_whaley_american_option_price S K T r sigma "calls"
        = .ok (bawEuropeanCall S K T r sigma)
      ∧ barone_adesi_whaley_american_option_price S K T r sigma "puts"
        = .ok (bawEuropeanPut S K T r sigma) := by
  have hd : ¬ discrval r sigma < 0 := not_lt.mpr (discrval_nonneg r sigma hs)
  have hKne : K ≠ 0 := ne_of_gt hK
  have hSK : ¬ S / K ≤ 0 := not_le.mpr (div_pos hS hK)
  have hTlt : ¬ T < 0 := not_lt.mpr (le_of_lt hT)
  have hsT : sigma * Real.sqrt T ≠ 0 :=
    mul_ne_zero hs (ne_of_gt (Real.sqrt_pos.mpr hT))
  constructor <;>
    simp [barone_adesi_whaley_american_option_price, hs, hd, hKne, hSK, hTlt, hsT, hq]

/-- For a negative rate and a call, the early-exercise branch fires with
`S_critical < 0 <= S`, so the pricer returns the constant `S - K`
independently of the volatility (source lines 203-205). -/
theorem baw_const_of_neg_r (S K T r sigma : ℝ) (hS : 0 < S) (hK : 0 < K) (hT : 0 < T)
    (hr : r < 0) (hs : sigma ≠ 0) :
    barone_adesi_whaley_american_option_price S K T r sigma "calls" = .ok (S - K) := by
  have hd : ¬ discrval r sigma < 0 := not_lt.mpr (discrval_nonneg r sigma hs)
  have hKne : K ≠ 0 := ne_of_gt hK
  have hSK : ¬ S / K ≤ 0 := not_le.mpr (div_pos hS hK)
  have hTlt : ¬ T < 0 := not_lt.mpr (le_of_lt hT)
  have hsT : sigma * Real.sqrt T ≠ 0 :=
    mul_ne_zero hs (ne_of_gt (Real.sqrt_pos.mpr hT))
  have hq0 : 0 < q2val r sigma := q2val_pos r sigma hr hs
  have hq1 : q2val r sigma < 1 := q2val_lt_one r sigma hs
  have hqlt : ¬ q2val r sigma < 0 := not_lt.mpr (le_of_lt hq0)
  have hqne : ¬ q2val r sigma = 0 := ne_of_gt hq0
  have hinv : 1 < 1 / q2val r sigma := (one_lt_div hq0).mpr hq1
  have hden : 1 - (q2val r sigma)⁻¹ < 0 := by
    rw [← one_div]
    linarith
  have hdenne : ¬ 1 - (q2val r sigma)⁻¹ = 0 := ne_of_lt hden
  have hScrit : K / (1 - (q2val r sigma)⁻¹) < 0 := div_neg_of_pos_of_neg hK hden
  have hge : K / (1 - (q2val r sigma)⁻¹) ≤ S := le_of_lt (lt_trans hScrit hS)
  simp [barone_adesi_whaley_american_option_price, hs, hd, hKne, hSK, hTlt, hsT,
    hqlt, hqne, hdenne, hge]

/-! ### Claim C1 -/

/-- C1: the claim states that `erf` sign-matches its argument
(`erf(-x) = -erf(x)`, negative output for negative input).  The code
computes `sign` after reassigning `x = abs(x)`, so the sign factor is
always `1`: at the failing input `x = -1` the code returns
`erf(-1) = erf(1) ≈ 0.8427 > 0` instead of a negative value, and
`normal_cdf` is even instead of satisfying `normal_cdf(x) < 0.5` for
`x < 0`.  This theorem evaluates the code at the failing input. -/
theorem claim_c1_erf_sign_bug :
    erf (-1) = erf 1 ∧ 0 < erf (-1) ∧ normal_cdf (-1) = normal_cdf 1 := by
  refine ⟨erf_neg_eq 1, ?_, ?_⟩
  · have habs : |(-1:ℝ)| = 1 := by norm_num
    have hval : erf (-1)
        = 1 - polyA (1 / (1 + 0.3275911 * 1)) * Real.exp (-((1:ℝ) * 1)) := by
      rw [erf_eq, habs]
    have hp1 : (0:ℝ) < polyA (1 / (1 + 0.3275911 * 1)) := by
      norm_num [polyA]
    have hp2 : polyA (1 / (1 + 0.3275911 * (1:ℝ))) < 2 := by
      norm_num [polyA]
    have he2 : Real.exp (-((1:ℝ) * 1)) < 1 / 2 := by
      have h1 : (-((1:ℝ) * 1)) = -1 := by norm_num
      rw [h1, Real.exp_neg]
      have hgt : (2:ℝ) < Real.exp 1 := by
        linarith [Real.exp_one_gt_d9]
      have := inv_strictAnti₀ (by norm_num : (0:ℝ) < 2) hgt
      linarith
    have hprod : polyA (1 / (1 + 0.3275911 * (1:ℝ))) * Real.exp (-((1:ℝ) * 1)) < 1 := by
      have := mul_lt_mul'' hp2 he2 (le_of_lt hp1) (le_of_lt (Real.exp_pos _))
      linarith
    rw [hval]
    linarith
  · have h1 : (-1 : ℝ) / Real.sqrt 2.0 = -(1 / Real.sqrt 2.0) := by ring
    unfold normal_cdf
    rw [h1, erf_neg_eq]

/-! ### Claim C9 -/

/-- C9: for `S, K, T, sigma > 0`, `calculate_delta` returns
`normal_cdf d1` for calls and `normal_cdf d1 - 1` for puts, where `d1`
is the Black-Scholes `(ln(S/K) + (r + sigma^2/2) T)/(sigma sqrt T)`;
the call delta lies in `[0, 1]` and the put delta in `[-1, 0]`. -/
theorem claim_c9_delta (S K T r sigma : ℝ) (hS : 0 < S) (hK : 0 < K) (hT : 0 < T)
    (hs : 0 < sigma) :
    calculate_delta S K T r sigma "calls" = .ok (normal_cdf (d1val S K T r sigma))
      ∧ calculate_delta S K T r sigma "puts"
        = .ok (normal_cdf (d1val S K T r sigma) - 1)
      ∧ d1val S K T r sigma
        = (Real.log (S / K) + (r + sigma ^ 2 / 2) * T) / (sigma * Real.sqrt T)
      ∧ 0 ≤ normal_cdf (d1val S K T r sigma)
      ∧ normal_cdf (d1val S K T r sigma) ≤ 1
      ∧ -1 ≤ normal_cdf (d1val S K T r sigma) - 1
      ∧ normal_cdf (d1val S K T r sigma) - 1 ≤ 0 := by
  have hKne : K ≠ 0 := ne_of_gt hK
  have hSK : ¬ S / K ≤ 0 := not_le.mpr (div_pos hS hK)
  have hTlt : ¬ T < 0 := not_lt.mpr (le_of_lt hT)
  have hsT : sigma * Real.sqrt T ≠ 0 :=
    mul_ne_zero (ne_of_gt hs) (ne_of_gt (Real.sqrt_pos.mpr hT))
  refine ⟨?_, ?_, ?_, normal_cdf_nonneg _, normal_cdf_le_one _, ?_, ?_⟩
  · simp [calculate_delta, hKne, hSK, hTlt, hsT]
  · simp [calculate_delta, hKne, hSK, hTlt, hsT]
  · unfold d1val
    ring_nf
  · linarith [normal_cdf_nonneg (d1val S K T r sigma)]
  · linarith [normal_cdf_le_one (d1val S K T r sigma)]

/-- Witness for C9 at `S = K = 100`, `T = 1`, `r = 1/100`, `sigma = 1`. -/
theorem claim_c9_witness :
    (0:ℝ) < 100 ∧
      (calculate_delta 100 100 1 (1/100) 1 "calls"
          = .ok (normal_cdf (d1val 100 100 1 (1/100) 1))
        ∧ calculate_delta 100 100 1 (1/100) 1 "puts"
          = .ok (normal_cdf (d1val 100 100 1 (1/100) 1) - 1)
        ∧ d1val 100 100 1 (1/100) 1
          = (Real.log ((100:ℝ) / 100) + ((1/100 : ℝ) + 1 ^ 2 / 2) * 1)
              / (1 * Real.sqrt 1)
        ∧ 0 ≤ normal_cdf (d1val 100 100 1 (1/100) 1)
        ∧ normal_cdf (d1val 100 100 1 (1/100) 1) ≤ 1
        ∧ -1 ≤ normal_cdf (d1val 100 100 1 (1/100) 1) - 1
        ∧ normal_cdf (d1val 100 100 1 (1/100) 1) - 1 ≤ 0) :=
  ⟨by norm_num,
    claim_c9_delta 100 100 1 (1/100) 1 (by norm_num) (by norm_num) (by norm_num)
      (by norm_num)⟩

/-! ### Claim C7 -/

/-- C7: whenever `q2 < 0` (and the numeric guards pass), the pricer
returns exactly the European Black-Scholes value computed with the
code's `normal_cdf`: `S*N(d1) - K*exp(-rT)*N(d2)` for calls and
`K*exp(-rT)*N(-d2) - S*N(-d1)` for puts, with no early-exercise
premium added. -/
theorem claim_c7_q2neg_european (S K T r sigma : ℝ) (hS : 0 < S) (hK : 0 < K)
    (hT : 0 < T) (hs : sigma ≠ 0) (hq : q2val r sigma < 0) :
    barone_adesi_whaley_american_option_price S K T r sigma "calls"
        = .ok (S * normal_cdf (d1val S K T r sigma)
            - K * Real.exp (-r * T) * normal_cdf (d2val S K T r sigma))
      ∧ barone_adesi_whaley_american_option_price S K T r sigma "puts"
        = .ok (K * Real.exp (-r * T) * normal_cdf (-d2val S K T r sigma)
            - S * normal_cdf (-d1val S K T r sigma)) :=
  baw_euro_branch S K T r sigma hS hK hT hs hq

/-- Witness for C7 at `S = K = 100`, `T = 1`, `r = 1/100`, `sigma = 1`. -/
theorem claim_c7_witness :
    q2val (1/100) 1 < 0 ∧
      (barone_adesi_whaley_american_option_price 100 100 1 (1/100) 1 "calls"
          = .ok (100 * normal_cdf (d1val 100 100 1 (1/100) 1)
              - 100 * Real.exp (-(1/100) * 1) * normal_cdf (d2val 100 100 1 (1/100) 1))
        ∧ barone_adesi_whaley_american_option_price 100 100 1 (1/100) 1 "puts"
          = .ok (100 * Real.exp (-(1/100) * 1) * normal_cdf (-d2val 100 100 1 (1/100) 1)
              - 100 * normal_cdf (-d1val 100 100 1 (1/100) 1))) :=
  ⟨q2val_neg (1/100) 1 (by norm_num) (by norm_num),
    claim_c7_q2neg_european 100 100 1 (1/100) 1 (by norm_num) (by norm_num)
      (by norm_num) (by norm_num) (q2val_neg (1/100) 1 (by norm_num) (by norm_num))⟩

/-! ### Claim C10 -/

/-- C10: for every `r > 0` and `sigma > 0` (with `S, K, T > 0`), the
computed `q2` is strictly negative, so the pricer takes the `q2 < 0`
branch and returns exactly the European Black-Scholes value for both
option types (the early-exercise code is unreachable for positive
rates); and at `r = 0` exactly, `q2 = 0` and the unguarded division
`1/q2` is reached, which is a division by zero (`ZeroDivisionError`
under numba's python error model). -/
theorem claim_c10_q2_sign :
    (∀ S K T r sigma : ℝ, 0 < S → 0 < K → 0 < T → 0 < r → 0 < sigma →
      q2val r sigma < 0
        ∧ barone_adesi_whaley_american_option_price S K T r sigma "calls"
          = .ok (bawEuropeanCall S K T r sigma)
        ∧ barone_adesi_whaley_american_option_price S K T r sigma "puts"
          = .ok (bawEuropeanPut S K T r sigma))
    ∧ (∀ S K T sigma : ℝ, 0 < S → 0 < K → 0 < T → 0 < sigma →
      q2val 0 sigma = 0
        ∧ barone_adesi_whaley_american_option_price S K T 0 sigma "calls"
          = .error .zeroDivision
        ∧ barone_adesi_whaley_american_option_price S K T 0 sigma "puts"
          = .error .zeroDivision) := by
  constructor
  · intro S K T r sigma hS hK hT hr hs
    have hq := q2val_neg r sigma hr (ne_of_gt hs)
    have h := baw_euro_branch S K T r sigma hS hK hT (ne_of_gt hs) hq
    exact ⟨hq, h.1, h.2⟩
  · intro S K T sigma hS hK hT hs
    have hsne : sigma ≠ 0 := ne_of_gt hs
    have hq0 : q2val 0 sigma = 0 := q2val_zero sigma hsne
    have hd : ¬ discrval 0 sigma < 0 := not_lt.mpr (discrval_nonneg 0 sigma hsne)
    have hKne : K ≠ 0 := ne_of_gt hK
    have hSK : ¬ S / K ≤ 0 := not_le.mpr (div_pos hS hK)
    have hTlt : ¬ T < 0 := not_lt.mpr (le_of_lt hT)
    have hsT : sigma * Real.sqrt T ≠ 0 :=
      mul_ne_zero hsne (ne_of_gt (Real.sqrt_pos.mpr hT))
    refine ⟨hq0, ?_, ?_⟩ <;>
      simp [barone_adesi_whaley_american_option_price, hsne, hd, hKne, hSK, hTlt,
        hsT, hq0]

/-- Witness for C10 at `S = K = 100`, `T = 1`, `sigma = 1`, with
`r = 1/100` for the first part and `r = 0` for the second. -/
theorem claim_c10_witness :
    (q2val (1/100) 1 < 0
      ∧ barone_adesi_whaley_american_option_price 100 100 1 (1/100) 1 "calls"
        = .ok (bawEuropeanCall 100 100 1 (1/100) 1)
      ∧ barone_adesi_whaley_american_option_price 100 100 1 (1/100) 1 "puts"
        = .ok (bawEuropeanPut 100 100 1 (1/100) 1))
    ∧ (q2val 0 1 = 0
      ∧ barone_adesi_whaley_american_option_price 100 100 1 0 1 "calls"
        = .error .zeroDivision
      ∧ barone_adesi_whaley_american_option_price 100 100 1 0 1 "puts"
        = .error .zeroDivision) :=
  ⟨claim_c10_q2_sign.1 100 100 1 (1/100) 1 (by norm_num) (by norm_num) (by norm_num)
      (by norm_num) (by norm_num),
    claim_c10_q2_sign.2 100 100 1 1 (by norm_num) (by norm_num) (by norm_num)
      (by norm_num)⟩

/-! ### Claim C6 -/

/-- With a negative rate the call price is the constant `S - K`, so the
solver meets its tolerance at the very first midpoint
`(0.0001 + 2.0)/2 = 1.00005` and returns it, whatever the target
volatility was. -/
theorem solver_const_of_neg_r (S K T r tol : ℝ) (hS : 0 < S) (hK : 0 < K)
    (hT : 0 < T) (hr : r < 0) (htol : 0 < tol) (fuel : ℕ) :
    calculate_implied_volatility_baw (S - K) S K r T "calls" (fuel + 1) tol
      = .ok 1.00005 := by
  have hp := baw_const_of_neg_r S K T r ((0.0001 + 2.0) / 2) hS hK hT hr
    (by norm_num)
  have habs : |S - K - (S - K)| < tol := by
    simp [htol]
  unfold calculate_implied_volatility_baw
  simp only [ivLoop, hp, habs, if_pos]
  norm_num

/-- C6 (amended): the claimed round trip fails in general.  For calls
with `r < 0` the pricer is the constant `S - K` in the volatility, so
the solver applied to the synthetic price converges to the first
midpoint `1.00005` irrespective of the synthetic `sigma0`; the round
trip recovers `sigma0` only when `sigma0` is within tolerance of that
midpoint. -/
theorem claim_c6_negative_rate_roundtrip (S K T r : ℝ) (hS : 0 < S) (hK : 0 < K)
    (hT : 0 < T) (hr : r < 0) :
    (∀ sigma : ℝ, sigma ≠ 0 →
        barone_adesi_whaley_american_option_price S K T r sigma "calls"
          = .ok (S - K))
      ∧ ∀ tol : ℝ, 0 < tol → ∀ fuel : ℕ,
          calculate_implied_volatility_baw (S - K) S K r T "calls" (fuel + 1) tol
            = .ok 1.00005 :=
  ⟨fun sigma hs => baw_const_of_neg_r S K T r sigma hS hK hT hr hs,
    fun tol htol fuel => solver_const_of_neg_r S K T r tol hS hK hT hr htol fuel⟩

/-- Witness for C6 at `S = 100`, `K = 90`, `T = 1`, `r = -1/100`. -/
theorem claim_c6_witness :
    (0:ℝ) < 100 ∧
      ((∀ sigma : ℝ, sigma ≠ 0 →
          barone_adesi_whaley_american_option_price 100 90 1 (-1/100) sigma "calls"
            = .ok (100 - 90))
        ∧ ∀ tol : ℝ, 0 < tol → ∀ fuel : ℕ,
            calculate_implied_volatility_baw (100 - 90) 100 90 (-1/100) 1 "calls"
                (fuel + 1) tol
              = .ok 1.00005) :=
  ⟨by norm_num,
    claim_c6_negative_rate_roundtrip 100 90 1 (-1/100) (by norm_num) (by norm_num)
      (by norm_num) (by norm_num)⟩

/-- C6 is refuted at the concrete input `S = 100`, `K = 90`, `T = 1`,
`r = -1/100`, `option_type = calls`, synthetic `sigma0 = 1/2 ∈ [0.01, 1.5]`:
the pricer gives `p = 10`, and the solver applied to `p` (default 100
iterations, tolerance `1e-8`) returns `1.00005`, which is not within
`1e-4` of `sigma0`. -/
theorem claim_c6_counterexample :
    barone_adesi_whaley_american_option_price 100 90 1 (-1/100) (1/2) "calls"
        = .ok 10
      ∧ calculate_implied_volatility_baw 10 100 90 (-1/100) 1 "calls" 100 1e-8
        = .ok 1.00005
      ∧ ¬ |(1.00005 : ℝ) - 1/2| ≤ 1e-4 := by
  refine ⟨?_, ?_, ?_⟩
  · have h := baw_const_of_neg_r 100 90 1 (-1/100) (1/2) (by norm_num) (by norm_num)
      (by norm_num) (by norm_num) (by norm_num)
    rw [h]
    norm_num
  · have h := solver_const_of_neg_r 100 90 1 (-1/100) 1e-8 (by norm_num)
      (by norm_num) (by norm_num) (by norm_num) (by norm_num) 99
    rw [show (10:ℝ) = 100 - 90 by norm_num, show (100:ℕ) = 99 + 1 by norm_num]
    exact h
  · rw [show (1.00005:ℝ) - 1/2 = 0.50005 by norm_num,
      abs_of_pos (by norm_num : (0:ℝ) < 0.50005)]
    norm_num

/-! ### Claim C8 -/

/-- C8: one iteration of the solver, when the midpoint price `pr` is
not within tolerance of the target, sets `upper = mid` if
`pr > market_price` and `lower = mid` otherwise, and then doubles
`upper` exactly when the updated bracket has collapsed
(`upper - lower < tolerance`) while `upper` is still at or above the
original bound `2.0`; the loop then continues with the updated bracket
and `mid` as the recorded last midpoint. -/
theorem claim_c8_bisection_step (S K T r : ℝ) (ty : String) (p tol : ℝ) (fuel : ℕ)
    (l u m pr : ℝ)
    (hpr : barone_adesi_whaley_american_option_price S K T r ((l + u) / 2) ty
      = .ok pr)
    (hnc : ¬ |pr - p| < tol) :
    ivLoop S K T r ty p tol (fuel + 1) l u m =
      if pr > p then
        (if (l + u) / 2 - l < tol ∧ (l + u) / 2 ≥ 2.0 then
          ivLoop S K T r ty p tol fuel l ((l + u) / 2 * 2.0) ((l + u) / 2)
        else ivLoop S K T r ty p tol fuel l ((l + u) / 2) ((l + u) / 2))
      else
        (if u - (l + u) / 2 < tol ∧ u ≥ 2.0 then
          ivLoop S K T r ty p tol fuel ((l + u) / 2) (u * 2.0) ((l + u) / 2)
        else ivLoop S K T r ty p tol fuel ((l + u) / 2) u ((l + u) / 2)) := by
  rw [ivLoop, hpr]
  simp only [hnc, if_false]
  by_cases hgt : pr > p
  · simp only [hgt, if_true]
    split_ifs <;> rfl
  · simp only [hgt, if_false]
    split_ifs <;> rfl

/-- Witness for C8: at `S = 100`, `K = 90`, `T = 1`, `r = -1/100`
(where the call price is the constant `10`), bracket `[1, 2]`, target
price `5`, tolerance `1e-8`. -/
theorem claim_c8_witness :
    (barone_adesi_whaley_american_option_price 100 90 1 (-1/100) (((1:ℝ) + 2) / 2)
        "calls" = .ok 10)
      ∧ ¬ |(10:ℝ) - 5| < 1e-8
      ∧ ivLoop 100 90 1 (-1/100) "calls" 5 1e-8 (0 + 1) 1 2 7 =
          (if (10:ℝ) > 5 then
            (if ((1:ℝ) + 2) / 2 - 1 < 1e-8 ∧ ((1:ℝ) + 2) / 2 ≥ 2.0 then
              ivLoop 100 90 1 (-1/100) "calls" 5 1e-8 0 1 (((1:ℝ) + 2) / 2 * 2.0)
                (((1:ℝ) + 2) / 2)
            else ivLoop 100 90 1 (-1/100) "calls" 5 1e-8 0 1 (((1:ℝ) + 2) / 2)
              (((1:ℝ) + 2) / 2))
          else
            (if (2:ℝ) - ((1:ℝ) + 2) / 2 < 1e-8 ∧ (2:ℝ) ≥ 2.0 then
              ivLoop 100 90 1 (-1/100) "calls" 5 1e-8 0 (((1:ℝ) + 2) / 2) (2 * 2.0)
                (((1:ℝ) + 2) / 2)
            else ivLoop 100 90 1 (-1/100) "calls" 5 1e-8 0 (((1:ℝ) + 2) / 2) 2
              (((1:ℝ) + 2) / 2))) := by
  have hpr : barone_adesi_whaley_american_option_price 100 90 1 (-1/100)
      (((1:ℝ) + 2) / 2) "calls" = .ok 10 := by
    have h := baw_const_of_neg_r 100 90 1 (-1/100) (((1:ℝ) + 2) / 2) (by norm_num)
      (by norm_num) (by norm_num) (by norm_num) (by norm_num)
    rw [h]
    norm_num
  have hnc : ¬ |(10:ℝ) - 5| < 1e-8 := by
    rw [show (10:ℝ) - 5 = 5 by norm_num, abs_of_pos (by norm_num : (0:ℝ) < 5)]
    norm_num
  exact ⟨hpr, hnc,
    claim_c8_bisection_step 100 90 1 (-1/100) "calls" 5 1e-8 0 1 2 7 10 hpr hnc⟩

/-! ### Claim C2 -/

/-- With the code's `normal_cdf` confined to `[0, 1]`, the European
call value lies between `-K` and `S` whenever `S, K ≥ 0` and
`r*T ≥ 0`. -/
theorem bawEuropeanCall_bounds (S K T r sigma : ℝ) (hS : 0 ≤ S) (hK : 0 ≤ K)
    (hrT : 0 ≤ r * T) :
    -K ≤ bawEuropeanCall S K T r sigma ∧ bawEuropeanCall S K T r sigma ≤ S := by
  unfold bawEuropeanCall
  have h1 := normal_cdf_nonneg (d1val S K T r sigma)
  have h2 := normal_cdf_le_one (d1val S K T r sigma)
  have h3 := normal_cdf_nonneg (d2val S K T r sigma)
  have h4 := normal_cdf_le_one (d2val S K T r sigma)
  have he0 : 0 < Real.exp (-r * T) := Real.exp_pos _
  have he1 : Real.exp (-r * T) ≤ 1 := by
    rw [Real.exp_le_one_iff]
    linarith
  constructor
  · nlinarith [mul_nonneg hS h1, mul_nonneg hK h3, mul_nonneg (le_of_lt he0) h3]
  · nlinarith [mul_nonneg hS h1, mul_nonneg hK h3, mul_nonneg (le_of_lt he0) h3,
      mul_nonneg hK (le_of_lt he0)]

/-- C2 (amended): when the iterations are exhausted without any
midpoint meeting the tolerance, the solver returns just the last
midpoint, wrapped in the same plain success value as a converged
result — there is no `converged` flag.  Concretely, with `S = 100`,
`K = 90`, `T = 1`, `r = -1/100` the call price is constantly `10`;
targeting `5` with tolerance `1e-8` no iteration can converge, the
comparison `price > market` always shrinks `upper` to `mid`, the
doubling rule never fires, and after `k+1` iterations the loop
returns `.ok` of the last midpoint `l + (u - l)/2^(k+1)`. -/
theorem claim_c2_exhaustion_returns_bare_midpoint (k : ℕ) :
    ∀ l u m : ℝ, 0 < l → l < 2 → l ≤ u → u ≤ 2 →
      ivLoop 100 90 1 (-1/100) "calls" 5 1e-8 (k + 1) l u m
        = .ok (l + (u - l) / 2 ^ (k + 1)) := by
  induction k with
  | zero =>
    intro l u m h1 h2 h3 h4
    have hmid0 : (0:ℝ) < (l + u) / 2 := by linarith
    have hp := baw_const_of_neg_r 100 90 1 (-1/100) ((l + u) / 2) (by norm_num)
      (by norm_num) (by norm_num) (by norm_num) (ne_of_gt hmid0)
    have hnc : ¬ |(100:ℝ) - 90 - 5| < 1e-8 := by
      rw [show (100:ℝ) - 90 - 5 = 5 by norm_num,
        abs_of_pos (by norm_num : (0:ℝ) < 5)]
      norm_num
    have hgt : (100:ℝ) - 90 > 5 := by norm_num
    have hdbl : ¬ ((l + u) / 2 - l < 1e-8 ∧ (l + u) / 2 ≥ 2.0) := by
      rintro ⟨-, hge⟩
      have : (l + u) / 2 < 2 := by linarith
      rw [ge_iff_le] at hge
      norm_num at hge
      linarith
    rw [ivLoop, hp]
    simp only [hnc, if_false, hgt, if_true, hdbl]
    rw [ivLoop]
    congr 1
    ring
  | succ k ih =>
    intro l u m h1 h2 h3 h4
    have hmid0 : (0:ℝ) < (l + u) / 2 := by linarith
    have hp := baw_const_of_neg_r 100 90 1 (-1/100) ((l + u) / 2) (by norm_num)
      (by norm_num) (by norm_num) (by norm_num) (ne_of_gt hmid0)
    have hnc : ¬ |(100:ℝ) - 90 - 5| < 1e-8 := by
      rw [show (100:ℝ) - 90 - 5 = 5 by norm_num,
        abs_of_pos (by norm_num : (0:ℝ) < 5)]
      norm_num
    have hgt : (100:ℝ) - 90 > 5 := by norm_num
    have hdbl : ¬ ((l + u) / 2 - l < 1e-8 ∧ (l + u) / 2 ≥ 2.0) := by
      rintro ⟨-, hge⟩
      have : (l + u) / 2 < 2 := by linarith
      rw [ge_iff_le] at hge
      norm_num at hge
      linarith
    rw [ivLoop, hp]
    simp only [hnc, if_false, hgt, if_true, hdbl]
    rw [ih l ((l + u) / 2) ((l + u) / 2) h1 h2 (by linarith) (by linarith)]
    congr 1
    rw [pow_succ]
    ring

/-- Witness for C2 at bracket `[1, 2]`, one iteration. -/
theorem claim_c2_witness :
    (0:ℝ) < 1 ∧
      ivLoop 100 90 1 (-1/100) "calls" 5 1e-8 (0 + 1) 1 2 7
        = .ok (1 + ((2:ℝ) - 1) / 2 ^ (0 + 1)) :=
  ⟨by norm_num,
    claim_c2_exhaustion_returns_bare_midpoint 0 1 2 7 (by norm_num) (by norm_num)
      (by norm_num) (by norm_num)⟩

/-- C2 is refuted on the indistinguishability part: the solver's output
carries no `converged` flag.  At `S = K = 100`, `T = 1`, `r = 1/100`,
target price `-1000`, one iteration: with tolerance `0` the iteration
cannot converge (`|price + 1000| < 0` is impossible) and the run
exhausts `max_iterations`, while with tolerance `2000` the first
midpoint converges; both runs return the identical bare value
`.ok 1.00005`, so non-convergence is not signalled and is
indistinguishable from success, contrary to the claim. -/
theorem claim_c2_counterexample :
    calculate_implied_volatility_baw (-1000) 100 100 (1/100) 1 "calls" 1 0
        = .ok 1.00005
      ∧ calculate_implied_volatility_baw (-1000) 100 100 (1/100) 1 "calls" 1 2000
        = .ok 1.00005 := by
  have hs : ((0.0001:ℝ) + 2.0) / 2 ≠ 0 := by norm_num
  have hB := (baw_euro_branch 100 100 1 (1/100) ((0.0001 + 2.0) / 2) (by norm_num)
    (by norm_num) (by norm_num) hs
    (q2val_neg (1/100) ((0.0001 + 2.0) / 2) (by norm_num) hs)).1
  have hbounds := bawEuropeanCall_bounds 100 100 1 (1/100) ((0.0001 + 2.0) / 2)
    (by norm_num) (by norm_num) (by norm_num)
  constructor
  · have hncA : ¬ |bawEuropeanCall 100 100 1 (1/100) ((0.0001 + 2.0) / 2)
        - (-1000 : ℝ)| < 0 := not_lt.mpr (abs_nonneg _)
    have hgtA : bawEuropeanCall 100 100 1 (1/100) ((0.0001 + 2.0) / 2)
        > (-1000 : ℝ) := by
      have := hbounds.1
      linarith
    have hdblA : ¬ (((0.0001:ℝ) + 2.0) / 2 - 0.0001 < 0
        ∧ ((0.0001:ℝ) + 2.0) / 2 ≥ 2.0) := by
      rintro ⟨h, -⟩
      norm_num at h
    unfold calculate_implied_volatility_baw
    rw [show (1:ℕ) = 0 + 1 from rfl, ivLoop, hB]
    simp only [hncA, if_false, hgtA, if_true, hdblA]
    rw [ivLoop]
    norm_num
  · have hcvB : |bawEuropeanCall 100 100 1 (1/100) ((0.0001 + 2.0) / 2)
        - (-1000 : ℝ)| < 2000 := by
      rw [abs_lt]
      constructor <;> [linarith [hbounds.1]; linarith [hbounds.2]]
    unfold calculate_implied_volatility_baw
    rw [show (1:ℕ) = 0 + 1 from rfl, ivLoop, hB]
    simp only [hcvB, if_true]
    norm_num

/-! ### Claim C3 -/

/-- C3 is refuted at the concrete input `S = K = 100`, `T = 1`,
`r = 1/100`, `sigma = -1/2`: the claim says the pricer fails for
`volatility <= 0`, but the code performs no sign check on `sigma` and
returns a price for a negative volatility. -/
theorem claim_c3_counterexample :
    ∃ v, barone_adesi_whaley_american_option_price 100 100 1 (1/100) (-1/2) "calls"
      = .ok v := by
  have hs : (-1/2 : ℝ) ≠ 0 := by norm_num
  exact ⟨_, (baw_euro_branch 100 100 1 (1/100) (-1/2) (by norm_num) (by norm_num)
    (by norm_num) hs (q2val_neg (1/100) (-1/2) (by norm_num) hs)).1⟩

/-- C3 (amended): for `S, K > 0` and `r > 0`, the pricer fails exactly
when the option type is invalid, or `sigma = 0` (division by zero in
`M = 2r/sigma^2`), or `T <= 0` (`math.sqrt` domain error for `T < 0`,
division by zero in `d1` for `T = 0`).  A negative volatility is not
rejected: the pricer returns a value for `sigma < 0`. -/
theorem claim_c3_failure_characterization (S K T r sigma : ℝ) (ty : String)
    (hS : 0 < S) (hK : 0 < K) (hr : 0 < r) :
    (∃ v, barone_adesi_whaley_american_option_price S K T r sigma ty = .ok v)
      ↔ (ty = "calls" ∨ ty = "puts") ∧ sigma ≠ 0 ∧ 0 < T := by
  have hKne : K ≠ 0 := ne_of_gt hK
  have hSK : ¬ S / K ≤ 0 := not_le.mpr (div_pos hS hK)
  constructor
  · rintro ⟨v, hv⟩
    by_cases hsig : sigma = 0
    · rw [barone_adesi_whaley_american_option_price] at hv
      simp [hsig] at hv
    have hd : ¬ discrval r sigma < 0 := not_lt.mpr (discrval_nonneg r sigma hsig)
    by_cases hT : 0 < T
    · by_cases hc : ty = "calls"
      · exact ⟨Or.inl hc, hsig, hT⟩
      by_cases hp : ty = "puts"
      · exact ⟨Or.inr hp, hsig, hT⟩
      exfalso
      have hsT : sigma * Real.sqrt T ≠ 0 :=
        mul_ne_zero hsig (ne_of_gt (Real.sqrt_pos.mpr hT))
      have hTlt : ¬ T < 0 := by linarith
      rw [barone_adesi_whaley_american_option_price] at hv
      simp [hsig, hd, hKne, hSK, hTlt, hsT, hc, hp] at hv
    · exfalso
      rcases (le_of_not_lt hT).lt_or_eq with hTlt | hTeq
      · rw [barone_adesi_whaley_american_option_price] at hv
        simp [hsig, hd, hKne, hSK, hTlt] at hv
      · subst hTeq
        rw [barone_adesi_whaley_american_option_price] at hv
        simp [hsig, hd, hKne, hSK, Real.sqrt_zero] at hv
  · rintro ⟨hty, hsig, hT⟩
    have hq := q2val_neg r sigma hr hsig
    rcases hty with h | h <;> subst h
    · exact ⟨_, (baw_euro_branch S K T r sigma hS hK hT hsig hq).1⟩
    · exact ⟨_, (baw_euro_branch S K T r sigma hS hK hT hsig hq).2⟩

/-- Witness for C3 at `S = K = 100`, `T = 1`, `r = 1/100`,
`sigma = 1`, `option_type = calls`. -/
theorem claim_c3_witness :
    (0:ℝ) < 100 ∧
      ((∃ v, barone_adesi_whaley_american_option_price 100 100 1 (1/100) 1 "calls"
          = .ok v)
        ↔ ("calls" = "calls" ∨ "calls" = "puts") ∧ (1:ℝ) ≠ 0 ∧ (0:ℝ) < 1) :=
  ⟨by norm_num,
    claim_c3_failure_characterization 100 100 1 (1/100) 1 "calls" (by norm_num)
      (by norm_num) (by norm_num)⟩

/-! ### Numeric enclosures for `normal_cdf` at specific points -/

theorem div_sqrt2_bounds (a : ℝ) (ha : 0 ≤ a) :
    a * 0.7071067811 ≤ a / Real.sqrt 2.0 ∧ a / Real.sqrt 2.0 ≤ a * 0.7071067813 := by
  have hs2 : Real.sqrt 2.0 ^ 2 = 2.0 := Real.sq_sqrt (by norm_num)
  have hs0 : 0 < Real.sqrt 2.0 := Real.sqrt_pos.mpr (by norm_num)
  have hsl : 1.4142135623 < Real.sqrt 2.0 := by nlinarith
  have hsu : Real.sqrt 2.0 < 1.4142135624 := by nlinarith
  have hz0 : 0 ≤ a / Real.sqrt 2.0 := div_nonneg ha hs0.le
  have hza : a / Real.sqrt 2.0 * Real.sqrt 2.0 = a := div_mul_cancel₀ a (ne_of_gt hs0)
  constructor
  · nlinarith [hz0, hza, hsl, hsu]
  · nlinarith [hz0, hza, hsl, hsu]

/-- Enclosure for `erf x`, `x ≥ 0`, from rational enclosures of the
ingredients: `t = 1/(1+p x)` in `[tlo, thi]`, the polynomial value in
`[plo, phi]`, and `exp(-c)` (with `c = x*x`) in `[elo, ehi]`. -/
theorem erf_enclosure (x c tlo thi plo phi elo ehi : ℝ)
    (hx : 0 ≤ x) (hc : x * x = c) (hc0 : 0 ≤ c) (hc8 : c ≤ 8)
    (htlo : tlo ≤ 1 / (1 + 0.3275911 * x)) (hthi : 1 / (1 + 0.3275911 * x) ≤ thi)
    (ht0 : 0 ≤ tlo)
    (hplo : plo ≤ 0.254829592 * tlo - 0.284496736 * thi ^ 2
      + 1.421413741 * tlo ^ 3 - 1.453152027 * thi ^ 4 + 1.061405429 * tlo ^ 5)
    (hphi : 0.254829592 * thi - 0.284496736 * tlo ^ 2
      + 1.421413741 * thi ^ 3 - 1.453152027 * tlo ^ 4 + 1.061405429 * thi ^ 5 ≤ phi)
    (helo : elo ≤ (1 - c / 8) ^ 8) (hehi : (8 / (8 + c)) ^ 8 ≤ ehi)
    (hp0 : 0 ≤ plo) (he0 : 0 ≤ elo) :
    1 - phi * ehi ≤ erf x ∧ erf x ≤ 1 - plo * elo := by
  rw [erf_eq, abs_of_nonneg hx, hc]
  have hP1 := polyA_ge_interval (1 / (1 + 0.3275911 * x)) tlo thi ht0 htlo hthi
  have hP2 := polyA_le_interval (1 / (1 + 0.3275911 * x)) tlo thi ht0 htlo hthi
  have hplo' : plo ≤ polyA (1 / (1 + 0.3275911 * x)) := le_trans hplo hP1
  have hphi' : polyA (1 / (1 + 0.3275911 * x)) ≤ phi := le_trans hP2 hphi
  have hE1 : elo ≤ Real.exp (-c) := le_trans helo (exp_neg_ge_rat c hc0 hc8)
  have hE2 : Real.exp (-c) ≤ ehi := le_trans (exp_neg_le_rat c hc0) hehi
  have hE0 : 0 < Real.exp (-c) := Real.exp_pos _
  constructor
  · have := mul_le_mul hphi' hE2 (le_of_lt hE0) (le_trans hp0 (le_trans hplo' hphi'))
    linarith
  · have := mul_le_mul hplo' hE1 he0 (le_trans hp0 hplo')
    linarith

theorem ncdf_one_lo : 0.8389 ≤ normal_cdf 1 := by
  unfold normal_cdf
  have hy := div_sqrt2_bounds 1 (by norm_num)
  have hy0 : (0:ℝ) ≤ 1 / Real.sqrt 2.0 := by
    have := hy.1
    nlinarith
  have hcc : 1 / Real.sqrt 2.0 * (1 / Real.sqrt 2.0) = 0.5 := by
    rw [div_mul_div_comm, one_mul, Real.mul_self_sqrt (by norm_num : (0:ℝ) ≤ 2.0)]
    norm_num
  have htlo : (0.811924:ℝ) ≤ 1 / (1 + 0.3275911 * (1 / Real.sqrt 2.0)) := by
    have h1 : 1 + 0.3275911 * (1 / Real.sqrt 2.0) ≤ 1 + 0.3275911 * (1 * 0.7071067813) := by
      nlinarith [hy.2]
    have h2 : 1 / (1 + 0.3275911 * ((1:ℝ) * 0.7071067813))
        ≤ 1 / (1 + 0.3275911 * (1 / Real.sqrt 2.0)) :=
      one_div_le_one_div_of_le (by nlinarith [hy.1]) h1
    nlinarith [h2]
  have hthi : 1 / (1 + 0.3275911 * (1 / Real.sqrt 2.0)) ≤ 0.811925 := by
    have h1 : 1 + 0.3275911 * ((1:ℝ) * 0.7071067811)
        ≤ 1 + 0.3275911 * (1 / Real.sqrt 2.0) := by
      nlinarith [hy.1]
    have h2 : 1 / (1 + 0.3275911 * (1 / Real.sqrt 2.0))
        ≤ 1 / (1 + 0.3275911 * ((1:ℝ) * 0.7071067811)) :=
      one_div_le_one_div_of_le (by norm_num) h1
    nlinarith [h2]
  have h := erf_enclosure (1 / Real.sqrt 2.0) 0.5 0.811924 0.811925 0.5231 0.5232
      0.5967 0.6157 hy0 hcc (by norm_num) (by norm_num) htlo hthi (by norm_num)
      (by norm_num) (by norm_num) (by norm_num) (by norm_num) (by norm_num)
      (by norm_num)
  have h1d : (1:ℝ) / Real.sqrt 2.0 = 1 / Real.sqrt 2.0 := rfl
  nlinarith [h.1]

theorem ncdf_zero_hi : normal_cdf 0 ≤ 0.5000001 := by
  unfold normal_cdf
  rw [zero_div, erf_eq]
  norm_num [polyA, Real.exp_zero]

theorem ncdf_one25_hi : normal_cdf 1.25 ≤ 0.8987 := by
  unfold normal_cdf
  have hy := div_sqrt2_bounds 1.25 (by norm_num)
  have hy0 : (0:ℝ) ≤ 1.25 / Real.sqrt 2.0 := by
    nlinarith [hy.1]
  have hcc : 1.25 / Real.sqrt 2.0 * (1.25 / Real.sqrt 2.0) = 0.78125 := by
    rw [div_mul_div_comm, Real.mul_self_sqrt (by norm_num : (0:ℝ) ≤ 2.0)]
    norm_num
  have htlo : (0.775462:ℝ) ≤ 1 / (1 + 0.3275911 * (1.25 / Real.sqrt 2.0)) := by
    have h1 : 1 + 0.3275911 * (1.25 / Real.sqrt 2.0)
        ≤ 1 + 0.3275911 * ((1.25:ℝ) * 0.7071067813) := by
      nlinarith [hy.2]
    have h2 : 1 / (1 + 0.3275911 * ((1.25:ℝ) * 0.7071067813))
        ≤ 1 / (1 + 0.3275911 * (1.25 / Real.sqrt 2.0)) :=
      one_div_le_one_div_of_le (by nlinarith [hy.1]) h1
    nlinarith [h2]
  have hthi : 1 / (1 + 0.3275911 * (1.25 / Real.sqrt 2.0)) ≤ 0.775465 := by
    have h1 : 1 + 0.3275911 * ((1.25:ℝ) * 0.7071067811)
        ≤ 1 + 0.3275911 * (1.25 / Real.sqrt 2.0) := by
      nlinarith [hy.1]
    have h2 : 1 / (1 + 0.3275911 * (1.25 / Real.sqrt 2.0))
        ≤ 1 / (1 + 0.3275911 * ((1.25:ℝ) * 0.7071067811)) :=
      one_div_le_one_div_of_le (by norm_num) h1
    nlinarith [h2]
  have h := erf_enclosure (1.25 / Real.sqrt 2.0) 0.78125 0.775462 0.775465
      0.4615 0.4616 0.4395 0.4746 hy0 hcc (by norm_num) (by norm_num) htlo hthi
      (by norm_num) (by norm_num) (by norm_num) (by norm_num) (by norm_num)
      (by norm_num) (by norm_num)
  nlinarith [h.2]

theorem ncdf_neg075_lo : 0.7722 ≤ normal_cdf (-0.75) := by
  unfold normal_cdf
  rw [show (-0.75:ℝ) / Real.sqrt 2.0 = -(0.75 / Real.sqrt 2.0) by ring, erf_neg_eq]
  have hy := div_sqrt2_bounds 0.75 (by norm_num)
  have hy0 : (0:ℝ) ≤ 0.75 / Real.sqrt 2.0 := by
    nlinarith [hy.1]
  have hcc : 0.75 / Real.sqrt 2.0 * (0.75 / Real.sqrt 2.0) = 0.28125 := by
    rw [div_mul_div_comm, Real.mul_self_sqrt (by norm_num : (0:ℝ) ≤ 2.0)]
    norm_num
  have htlo : (0.851982:ℝ) ≤ 1 / (1 + 0.3275911 * (0.75 / Real.sqrt 2.0)) := by
    have h1 : 1 + 0.3275911 * (0.75 / Real.sqrt 2.0)
        ≤ 1 + 0.3275911 * ((0.75:ℝ) * 0.7071067813) := by
      nlinarith [hy.2]
    have h2 : 1 / (1 + 0.3275911 * ((0.75:ℝ) * 0.7071067813))
        ≤ 1 / (1 + 0.3275911 * (0.75 / Real.sqrt 2.0)) :=
      one_div_le_one_div_of_le (by nlinarith [hy.1]) h1
    nlinarith [h2]
  have hthi : 1 / (1 + 0.3275911 * (0.75 / Real.sqrt 2.0)) ≤ 0.851986 := by
    have h1 : 1 + 0.3275911 * ((0.75:ℝ) * 0.7071067811)
        ≤ 1 + 0.3275911 * (0.75 / Real.sqrt 2.0) := by
      nlinarith [hy.1]
    have h2 : 1 / (1 + 0.3275911 * (0.75 / Real.sqrt 2.0))
        ≤ 1 / (1 + 0.3275911 * ((0.75:ℝ) * 0.7071067811)) :=
      one_div_le_one_div_of_le (by norm_num) h1
    nlinarith [h2]
  have h := erf_enclosure (0.75 / Real.sqrt 2.0) 0.28125 0.851982 0.851986
      0.6004 0.6005 0.751 0.7585 hy0 hcc (by norm_num) (by norm_num) htlo hthi
      (by norm_num) (by norm_num) (by norm_num) (by norm_num) (by norm_num)
      (by norm_num) (by norm_num)
  nlinarith [h.1]

/-! ### Claim C5 -/

/-- C5: the claimed monotonicity of the price in the volatility fails.
At `S = K = 100`, `T = 1`, `r = 1/2`, with `sigma = 1 < sigma = 2`
(both in `[0.0001, 2.0]`), the price strictly decreases: because the
broken `erf` makes `normal_cdf` even, `normal_cdf(d2)` grows as `d2`
becomes more negative, dragging the price down for large volatility
(price(1) ≈ 53.8, price(2) ≈ 42.5). -/
theorem claim_c5_nonmonotone :
    ∃ v w,
      barone_adesi_whaley_american_option_price 100 100 1 (1/2) 1 "calls" = .ok v
        ∧ barone_adesi_whaley_american_option_price 100 100 1 (1/2) 2 "calls" = .ok w
        ∧ w < v := by
  have hs1 : (1:ℝ) ≠ 0 := one_ne_zero
  have hs2 : (2:ℝ) ≠ 0 := two_ne_zero
  have h1 := (baw_euro_branch 100 100 1 (1/2) 1 (by norm_num) (by norm_num)
    (by norm_num) hs1 (q2val_neg (1/2) 1 (by norm_num) hs1)).1
  have h2 := (baw_euro_branch 100 100 1 (1/2) 2 (by norm_num) (by norm_num)
    (by norm_num) hs2 (q2val_neg (1/2) 2 (by norm_num) hs2)).1
  refine ⟨_, _, h1, h2, ?_⟩
  have hd11 : d1val 100 100 1 (1/2) 1 = 1 := by
    unfold d1val
    rw [show (100:ℝ)/100 = 1 by norm_num, Real.log_one, Real.sqrt_one]
    norm_num
  have hd21 : d2val 100 100 1 (1/2) 1 = 0 := by
    unfold d2val
    rw [hd11, Real.sqrt_one]
    norm_num
  have hd12 : d1val 100 100 1 (1/2) 2 = 1.25 := by
    unfold d1val
    rw [show (100:ℝ)/100 = 1 by norm_num, Real.log_one, Real.sqrt_one]
    norm_num
  have hd22 : d2val 100 100 1 (1/2) 2 = -0.75 := by
    unfold d2val
    rw [hd12, Real.sqrt_one]
    norm_num
  unfold bawEuropeanCall
  rw [hd11, hd21, hd12, hd22]
  have hexp_lo : (0.5967:ℝ) ≤ Real.exp (-(1/2) * 1) := by
    rw [show (-(1/2:ℝ) * 1) = -(1/2) by norm_num]
    have h := exp_neg_ge_rat (1/2) (by norm_num) (by norm_num)
    nlinarith [h]
  have hexp_hi : Real.exp (-(1/2:ℝ) * 1) ≤ 0.6157 := by
    rw [show (-(1/2:ℝ) * 1) = -(1/2) by norm_num]
    have h := exp_neg_le_rat (1/2) (by norm_num)
    nlinarith [h]
  have hprod_lo := mul_le_mul hexp_lo ncdf_neg075_lo (by norm_num)
    (le_of_lt (Real.exp_pos _))
  have hprod_hi := mul_le_mul hexp_hi ncdf_zero_hi (normal_cdf_nonneg 0)
    (by norm_num)
  nlinarith [ncdf_one_lo, ncdf_one25_hi, hprod_lo, hprod_hi]

/-! ### Claim C4 -/

/-- C4: the intrinsic-value floor fails.  At the failing input
`S = 100`, `K = 200`, `T = 1`, `r = 1/100`, `sigma = 1`, calls, the
intrinsic floor is `max(0, S-K) = 0`, but the pricer returns a
negative value (≈ -117): the broken even `normal_cdf` gives
`normal_cdf(d2) ≈ 0.88` for the deeply negative `d2`, so the
subtracted strike leg overwhelms the stock leg. -/
theorem claim_c4_price_below_intrinsic :
    ∃ v, barone_adesi_whaley_american_option_price 100 200 1 (1/100) 1 "calls"
        = .ok v ∧ v < 0 := by
  have hs : (1:ℝ) ≠ 0 := one_ne_zero
  have h := (baw_euro_branch 100 200 1 (1/100) 1 (by norm_num) (by norm_num)
    (by norm_num) hs (q2val_neg (1/100) 1 (by norm_num) hs)).1
  refine ⟨_, h, ?_⟩
  have hd2 : d2val 100 200 1 (1/100) 1 = -(0.49 + Real.log 2) := by
    unfold d2val d1val
    rw [show (100:ℝ)/200 = (2:ℝ)⁻¹ by norm_num, Real.log_inv, Real.sqrt_one]
    ring
  have hl2 := Real.log_two_gt_d9
  have hPhi1 : normal_cdf (d1val 100 200 1 (1/100) 1) ≤ 1 := normal_cdf_le_one _
  have hexp : (0.99:ℝ) ≤ Real.exp (-(1/100) * 1) := by
    have h' := Real.add_one_le_exp (-(1/100 : ℝ) * 1)
    linarith
  have hPhi2 : (0.744:ℝ) ≤ normal_cdf (d2val 100 200 1 (1/100) 1) := by
    rw [hd2]
    unfold normal_cdf
    rw [show (-(0.49 + Real.log 2)) / Real.sqrt 2.0
        = -((0.49 + Real.log 2) / Real.sqrt 2.0) by ring, erf_neg_eq]
    set z := (0.49 + Real.log 2) / Real.sqrt 2.0 with hz
    have hz0 : 0 ≤ z := by
      apply div_nonneg _ (Real.sqrt_nonneg _)
      linarith
    have hzz : 0.6999 ≤ z * z := by
      have hmul : z * z = (0.49 + Real.log 2) * (0.49 + Real.log 2) / 2.0 := by
        rw [hz, div_mul_div_comm, Real.mul_self_sqrt (by norm_num : (0:ℝ) ≤ 2.0)]
      rw [hmul]
      nlinarith
    have herf : (0.4887:ℝ) ≤ erf z := by
      rw [erf_eq, abs_of_nonneg hz0]
      have ht0 := erf_tval_pos z
      have ht1 := erf_tval_le_one z
      rw [abs_of_nonneg hz0] at ht0 ht1
      have hp0 := polyA_nonneg (le_of_lt ht0)
      have hp1 := polyA_le_one ht1
      have hE1 : Real.exp (-(z * z)) ≤ Real.exp (-(0.6999:ℝ)) := by
        rw [Real.exp_le_exp]
        linarith
      have hE2 : Real.exp (-(0.6999:ℝ)) ≤ (8 / (8 + 0.6999)) ^ 8 :=
        exp_neg_le_rat 0.6999 (by norm_num)
      have hE3 : ((8:ℝ) / (8 + 0.6999)) ^ 8 ≤ 0.5113 := by norm_num
      have hE0 : (0:ℝ) < Real.exp (-(z * z)) := Real.exp_pos _
      nlinarith [mul_le_mul_of_nonneg_right hp1 (le_of_lt hE0)]
    linarith
  unfold bawEuropeanCall
  have hprod := mul_le_mul hexp hPhi2 (by norm_num) (le_of_lt (Real.exp_pos _))
  nlinarith [hPhi1, hprod, normal_cdf_nonneg (d1val 100 200 1 (1/100) 1)]
